import Mathlib

/-!
Shallow embedding of the FindCandidateWords notebook (Wordle-style candidate
word generator).  The pipeline is modelled cell by cell from
src/FindCandidateWords.ipynb: constraint parsing (`fixed_letters`,
`dict_letters`, `unknown_letters`), wildcard pattern generation
(`known_pattern`, `unknown_pos`, `unknown_combos`, `perms_unknown_combos`,
`known_patterns`), result aggregation (`candidate_words`), filtering
(`candidate_arr`, `filtered_candidate_arr`) and reporting (`report`).
The external Datamuse lookup is an opaque parameter
`lookup : List Char → List (List Char)` returning the `word` fields of the
JSON records; words are character lists, joined to `String` only at the
reporting boundary, mirroring `''.join`.
-/

namespace FindCandidateWords

/-- Python itertools.combinations: all length-`k` sublists of `l`, emitted in
the same order Python emits them (elements in original list order, subsets in
lexicographic index order). -/
def combinations {α : Type} : Nat → List α → List (List α)
  | 0, _ => [[]]
  | _ + 1, [] => []
  | k + 1, x :: xs => (combinations k xs).map (x :: ·) ++ combinations (k + 1) xs

/-- All ways to pick one element out of a list, pairing the picked element with
the remaining elements, in order of the picked position. -/
def selections {α : Type} : List α → List (α × List α)
  | [] => []
  | x :: xs => (x, xs) :: (selections xs).map (fun p => (p.1, x :: p.2))

/-- Fuel-indexed permutation enumerator; with fuel at least the list length it
enumerates all permutations in the order of `itertools.permutations` (first
element chosen in list order, then recursively). -/
def permsFuel {α : Type} : Nat → List α → List (List α)
  | _, [] => [[]]
  | 0, _ :: _ => []
  | n + 1, x :: xs => (selections (x :: xs)).flatMap (fun p => (permsFuel n p.2).map (p.1 :: ·))

/-- Python itertools.permutations. -/
def permutations {α : Type} (l : List α) : List (List α) :=
  permsFuel l.length l

/-- CPython dict insertion on an association list: if the key is present the
value is updated in place (keeping the key's position), otherwise the pair is
appended. -/
def dictInsert (d : List (Int × Char)) (k : Int) (v : Char) : List (Int × Char) :=
  if d.any (fun p => p.1 == k) then d.map (fun p => if p.1 == k then (k, v) else p)
  else d ++ [(k, v)]

/-- Dict lookup: value at the first (hence unique) occurrence of the key. -/
def dictFind (d : List (Int × Char)) (k : Int) : Option Char :=
  (d.find? (fun p => p.1 == k)).map (·.2)

/-- Dict key-membership test (`k in d.keys()`). -/
def dictContains (d : List (Int × Char)) (k : Int) : Bool :=
  d.any (fun p => p.1 == k)

/-- The caller-supplied inputs of one notebook run: `word_length`,
`known_letters_loc` (letter, 0-based position or -1 for unknown) and the
starting `avail_letters`. -/
structure Input where
  word_length : Nat
  known_letters_loc : List (Char × Int)
  avail_letters : List Char

/-- Source `fixed_letters = sorted([l for l in known_letters_loc if l[1] >= 0], key=lambda k: k[1])`.
Python's `sorted` is stable; `insertionSort` with `≤` on the position is the
same stable sort. -/
def fixed_letters (inp : Input) : List (Char × Int) :=
  List.insertionSort (fun a b => a.2 ≤ b.2) (inp.known_letters_loc.filter (fun l => 0 ≤ l.2))

/-- Source dict comprehension over `fixed_letters`, keys positions, values letters: it
is a left fold of dict insertions starting from the empty dict. -/
def dict_letters (inp : Input) : List (Int × Char) :=
  (fixed_letters inp).foldl (fun d x => dictInsert d x.2 x.1) []

/-- Source `known_pattern`: the known letter at each position of `range(word_length)` if the dict has it, else the wildcard. -/
def known_pattern (inp : Input) : List Char :=
  (List.range inp.word_length).map (fun i =>
    match dictFind (dict_letters inp) (Int.ofNat i) with
    | some c => c
    | none => '?')

/-- Source `unknown_pos`: the positions of `range(word_length)` not in the dict keys. -/
def unknown_pos (inp : Input) : List Nat :=
  (List.range inp.word_length).filter (fun i => !dictContains (dict_letters inp) (Int.ofNat i))

/-- Source `unknown_letters`: the letters of the negative-position constraints, stably sorted by position. -/
def unknown_letters (inp : Input) : List Char :=
  (List.insertionSort (fun a b => a.2 ≤ b.2) (inp.known_letters_loc.filter (fun l => l.2 < 0))).map (·.1)

/-- Source `unknown_combos = list(itertools.combinations(unknown_pos, len(unknown_letters)))`. -/
def unknown_combos (inp : Input) : List (List Nat) :=
  combinations (unknown_letters inp).length (unknown_pos inp)

/-- Source `perms_unknown_combos = [list(itertools.permutations(x)) for x in unknown_combos]`. -/
def perms_unknown_combos (inp : Input) : List (List (List Nat)) :=
  (unknown_combos inp).map permutations

/-- The inner pattern construction: copy `known_pattern` and execute
`tmp_pattern[x[0]] = x[1]` for each `x in zip(positions, unknown_letters)`. -/
def apply_assignment (base : List Char) (ps : List Nat) (ls : List Char) : List Char :=
  (ps.zip ls).foldl (fun acc y => acc.set y.1 y.2) base

/-- The double loop building `known_patterns`: for every combination, for every
permutation of it, place the unknown letters at the permuted positions. -/
def known_patterns (inp : Input) : List (List Char) :=
  (perms_unknown_combos inp).flatMap
    (fun perms => perms.map (fun p => apply_assignment (known_pattern inp) p (unknown_letters inp)))

/-- Source `known_letters = [l[0] for l in known_letters_loc]`. -/
def known_letters (inp : Input) : List Char :=
  inp.known_letters_loc.map (·.1)

/-- Source `avail_letters.extend(known_letters)`: the allowed-letter list after the
known letters are appended. -/
def avail_letters_ext (inp : Input) : List Char :=
  inp.avail_letters ++ known_letters inp

/-- The aggregation loop over all patterns: each lookup result is filtered to
words of the right length and appended when non-empty. -/
def candidate_words (inp : Input) (lookup : List Char → List (List Char)) : List (List Char) :=
  (known_patterns inp).foldl (fun acc p =>
    let good_words := (lookup p).filter (fun w => w.length == inp.word_length)
    if 0 < good_words.length then acc ++ good_words else acc) []

/-- Boolean lexicographic comparison of character rows, the row order used by
`np.unique(..., axis=0)` on `'<U1'` arrays (code-point order per column). -/
def lexLe : List Char → List Char → Bool
  | [], _ => true
  | _ :: _, [] => false
  | a :: as, b :: bs => if a < b then true else if a = b then lexLe as bs else false

/-- The propositional form of `lexLe`. -/
def LexLe (a b : List Char) : Prop :=
  lexLe a b = true

instance : DecidableRel LexLe := fun a b => by
  unfold LexLe
  infer_instance

/-- Model of `np.unique(..., axis=0)`: the distinct rows in ascending
lexicographic order. -/
def np_unique (ws : List (List Char)) : List (List Char) :=
  List.insertionSort LexLe ws.dedup

/-- Source `candidate_arr = np.unique(np.array([list(w) for w in candidate_words]), axis=0)`. -/
def candidate_arr (cw : List (List Char)) : List (List Char) :=
  np_unique cw

/-- Source allowed-letter filter over `candidate_arr.tolist()` testing that the set difference with `set(avail_letters)` is empty:
keep rows whose character set is inside the extended allowed set. -/
def filtered_candidate_arr (inp : Input) (lookup : List Char → List (List Char)) : List (List Char) :=
  (candidate_arr (candidate_words inp lookup)).filter
    (fun x => x.all (fun c => (avail_letters_ext inp).contains c))

/-- Source `list_candidate_words`, joining each surviving row —
computed in the reporting cell BEFORE the fixed-position filter loop runs, and
this is the list the notebook prints. -/
def list_candidate_words (inp : Input) (lookup : List Char → List (List Char)) : List String :=
  (filtered_candidate_arr inp lookup).map String.mk

/-- The fixed-position filter loop of the reporting cell: for each
`f in fixed_letters`, keep rows whose column `f[1]` holds `f[0]`.  Its result
is assigned back to `filtered_candidate_arr` but never used afterwards.
numpy raises `IndexError` on an out-of-range column; this list model instead
filters everything out there — the two agree on in-range fixed positions. -/
def fixed_filtered (inp : Input) (lookup : List Char → List (List Char)) : List (List Char) :=
  (fixed_letters inp).foldl
    (fun arr f => arr.filter (fun w => w.getD f.2.toNat '?' == f.1))
    (filtered_candidate_arr inp lookup)

/-- The candidate-filter stage as a standalone function of the aggregated
word list: dedup-and-sort, allowed-letter filter, fixed-position filter. -/
def candidate_filter (inp : Input) (ws : List (List Char)) : List (List Char) :=
  (fixed_letters inp).foldl
    (fun arr f => arr.filter (fun w => w.getD f.2.toNat '?' == f.1))
    ((np_unique ws).filter (fun x => x.all (fun c => (avail_letters_ext inp).contains c)))

/-- What the reporting cell prints: either the explanatory no-match message
carrying the (extended) allowed letters, or the joined candidate words. -/
inductive Report where
  | noMatch : List Char → Report
  | words : List String → Report
deriving DecidableEq

/-- The final `if len(filtered_candidate_arr) < 1: ... else: ...` cell.  In the
else branch the notebook prints `list_candidate_words`, which was built from
`filtered_candidate_arr` before the fixed-position loop reassigned it. -/
def report (inp : Input) (lookup : List Char → List (List Char)) : Report :=
  if (filtered_candidate_arr inp lookup).length < 1 then
    Report.noMatch (avail_letters_ext inp)
  else
    Report.words (list_candidate_words inp lookup)

/-! Combinatorics lemmas -/

theorem length_combinations {α : Type} :
    ∀ (k : Nat) (l : List α), (combinations k l).length = l.length.choose k
  | 0, _ => by simp [combinations, Nat.choose_zero_right]
  | _ + 1, [] => rfl
  | k + 1, x :: xs => by
    simp only [combinations, List.length_append, List.length_map,
      length_combinations k xs, length_combinations (k + 1) xs, List.length_cons,
      Nat.choose_succ_succ]

theorem sublist_of_mem_combinations {α : Type} :
    ∀ (k : Nat) (l : List α), ∀ c ∈ combinations k l, c.Sublist l
  | 0, l, c, hc => by
    simp only [combinations, List.mem_singleton] at hc
    subst hc
    exact List.nil_sublist l
  | _ + 1, [], c, hc => by simp [combinations] at hc
  | k + 1, x :: xs, c, hc => by
    simp only [combinations, List.mem_append, List.mem_map] at hc
    rcases hc with ⟨d, hd, rfl⟩ | hc
    · exact (sublist_of_mem_combinations k xs d hd).cons₂ x
    · exact (sublist_of_mem_combinations (k + 1) xs c hc).cons x

theorem length_of_mem_combinations {α : Type} :
    ∀ (k : Nat) (l : List α), ∀ c ∈ combinations k l, c.length = k
  | 0, l, c, hc => by
    simp only [combinations, List.mem_singleton] at hc
    subst hc
    rfl
  | _ + 1, [], c, hc => by simp [combinations] at hc
  | k + 1, x :: xs, c, hc => by
    simp only [combinations, List.mem_append, List.mem_map] at hc
    rcases hc with ⟨d, hd, rfl⟩ | hc
    · simp [length_of_mem_combinations k xs d hd]
    · exact length_of_mem_combinations (k + 1) xs c hc

theorem length_selections {α : Type} :
    ∀ l : List α, (selections l).length = l.length
  | [] => rfl
  | _ :: xs => by simp [selections, length_selections xs]

theorem snd_length_of_mem_selections {α : Type} :
    ∀ (l : List α), ∀ p ∈ selections l, p.2.length + 1 = l.length
  | [], p, hp => by simp [selections] at hp
  | x :: xs, p, hp => by
    simp only [selections, List.mem_cons, List.mem_map] at hp
    rcases hp with rfl | ⟨q, hq, rfl⟩
    · rfl
    · simpa using snd_length_of_mem_selections xs q hq

theorem cons_perm_of_mem_selections {α : Type} :
    ∀ (l : List α), ∀ p ∈ selections l, (p.1 :: p.2).Perm l
  | [], p, hp => by simp [selections] at hp
  | x :: xs, p, hp => by
    simp only [selections, List.mem_cons, List.mem_map] at hp
    rcases hp with rfl | ⟨q, hq, rfl⟩
    · exact List.Perm.refl _
    · exact (List.Perm.swap x q.1 q.2).trans
        ((cons_perm_of_mem_selections xs q hq).cons x)

theorem sum_map_const_of_mem {α : Type} (l : List α) (f : α → Nat) (m : Nat)
    (h : ∀ x ∈ l, f x = m) : (l.map f).sum = l.length * m := by
  induction l with
  | nil => simp
  | cons x xs ih =>
    have hx : f x = m := h x (by simp)
    have hxs := ih (fun y hy => h y (List.mem_cons_of_mem x hy))
    simp [hx, hxs, Nat.succ_mul, Nat.add_comm]

theorem length_flatMap_sum {α β : Type} (l : List α) (f : α → List β) :
    (l.flatMap f).length = (l.map (fun a => (f a).length)).sum := by
  induction l with
  | nil => rfl
  | cons x xs ih => simp [ih]

theorem length_permsFuel {α : Type} :
    ∀ (n : Nat) (l : List α), l.length ≤ n → (permsFuel n l).length = l.length.factorial
  | _, [], _ => by simp [permsFuel]
  | 0, x :: xs, h => by simp at h
  | n + 1, x :: xs, h => by
    rw [permsFuel, length_flatMap_sum,
      sum_map_const_of_mem (selections (x :: xs)) _ xs.length.factorial ?const,
      length_selections]
    · simp [Nat.factorial_succ]
    · intro p hp
      have hlen := snd_length_of_mem_selections (x :: xs) p hp
      have hple : p.2.length ≤ n := by
        simp only [List.length_cons] at hlen h
        omega
      rw [List.length_map, length_permsFuel n p.2 hple]
      have : p.2.length = xs.length := by
        simp only [List.length_cons] at hlen
        omega
      rw [this]

theorem perm_of_mem_permsFuel {α : Type} :
    ∀ (n : Nat) (l m : List α), l.length ≤ n → m ∈ permsFuel n l → m.Perm l
  | _, [], m, _, hm => by
    simp only [permsFuel, List.mem_singleton] at hm
    subst hm
    exact List.Perm.refl _
  | 0, x :: xs, m, h, _ => by simp at h
  | n + 1, x :: xs, m, h, hm => by
    rw [permsFuel] at hm
    simp only [List.mem_flatMap, List.mem_map] at hm
    obtain ⟨p, hp, m', hm', rfl⟩ := hm
    have hlen := snd_length_of_mem_selections (x :: xs) p hp
    have hple : p.2.length ≤ n := by
      simp only [List.length_cons] at hlen h
      omega
    exact ((perm_of_mem_permsFuel n p.2 m' hple hm').cons p.1).trans
      (cons_perm_of_mem_selections (x :: xs) p hp)

theorem length_permutations {α : Type} (l : List α) :
    (permutations l).length = l.length.factorial :=
  length_permsFuel l.length l le_rfl

theorem perm_of_mem_permutations {α : Type} {l m : List α} (hm : m ∈ permutations l) :
    m.Perm l :=
  perm_of_mem_permsFuel l.length l m le_rfl hm

/-! Dict (association-list) lemmas -/

theorem find?_eq_head?_filter {α : Type} (l : List α) (p : α → Bool) :
    l.find? p = (l.filter p).head? := by
  induction l with
  | nil => rfl
  | cons x xs ih =>
    by_cases hx : p x
    · rw [List.find?_cons_of_pos _ hx, List.filter_cons_of_pos hx]
      rfl
    · rw [List.find?_cons_of_neg _ hx, List.filter_cons_of_neg hx, ih]

theorem find?_map_update_eq (d : List (Int × Char)) (k : Int) (v : Char)
    (h : ∃ p ∈ d, p.1 = k) :
    (d.map (fun p => if p.1 == k then (k, v) else p)).find? (fun p => p.1 == k)
      = some (k, v) := by
  induction d with
  | nil => simp at h
  | cons q d ih =>
    rw [List.map_cons]
    by_cases hq : q.1 = k
    · have hg : (if (q.1 == k) = true then (k, v) else q) = (k, v) := by simp [hq]
      rw [hg, List.find?_cons_of_pos _ (by simp)]
    · have h' : ∃ p ∈ d, p.1 = k := by
        rcases h with ⟨p, hp, hpk⟩
        rcases List.mem_cons.mp hp with rfl | hp'
        · exact absurd hpk hq
        · exact ⟨p, hp', hpk⟩
      have hg : (if (q.1 == k) = true then (k, v) else q) = q := by simp [hq]
      rw [hg, List.find?_cons_of_neg _ (by simp [hq])]
      exact ih h'

theorem find?_map_update_ne (d : List (Int × Char)) (k i : Int) (v : Char) (hik : i ≠ k) :
    (d.map (fun p => if p.1 == k then (k, v) else p)).find? (fun p => p.1 == i)
      = d.find? (fun p => p.1 == i) := by
  induction d with
  | nil => rfl
  | cons q d ih =>
    rw [List.map_cons]
    by_cases hq : q.1 = k
    · have hg : (if (q.1 == k) = true then (k, v) else q) = (k, v) := by simp [hq]
      rw [hg, List.find?_cons_of_neg _ (by simp [Ne.symm hik]),
        List.find?_cons_of_neg _ (by simp [hq, Ne.symm hik])]
      exact ih
    · have hg : (if (q.1 == k) = true then (k, v) else q) = q := by simp [hq]
      rw [hg]
      by_cases hqi : q.1 = i
      · rw [List.find?_cons_of_pos _ (by simp [hqi]), List.find?_cons_of_pos _ (by simp [hqi])]
      · rw [List.find?_cons_of_neg _ (by simp [hqi]), List.find?_cons_of_neg _ (by simp [hqi])]
        exact ih

theorem dictFind_dictInsert (d : List (Int × Char)) (k i : Int) (v : Char) :
    dictFind (dictInsert d k v) i = if i = k then some v else dictFind d i := by
  unfold dictFind dictInsert
  cases hany : d.any (fun p => p.1 == k) with
  | true =>
    simp only [hany, if_true]
    by_cases hik : i = k
    · subst hik
      have h' : ∃ p ∈ d, p.1 = i := by simpa using hany
      rw [find?_map_update_eq d i v h', if_pos rfl]
      rfl
    · rw [find?_map_update_ne d k i v hik, if_neg hik]
  | false =>
    simp only [hany, Bool.false_eq_true, if_false]
    rw [List.find?_append]
    by_cases hik : i = k
    · subst hik
      have hnone : d.find? (fun p => p.1 == i) = none := by
        rw [List.find?_eq_none]
        intro x hx
        have := (List.any_eq_false.mp hany) x hx
        simpa using this
      simp [hnone, List.find?_cons]
    · have h1 : ((k, v) :: []).find? (fun p => p.1 == i) = none := by
        simp [List.find?_cons, Ne.symm hik]
      rw [h1, Option.or_none, if_neg hik]

theorem dictFind_foldl (l : List (Char × Int)) (d : List (Int × Char)) (i : Int) :
    dictFind (l.foldl (fun acc x => dictInsert acc x.2 x.1) d) i
      = ((l.reverse.find? (fun x => x.2 == i)).map (·.1)).or (dictFind d i) := by
  induction l generalizing d with
  | nil => simp
  | cons x xs ih =>
    rw [List.foldl_cons, ih, List.reverse_cons, List.find?_append]
    cases hf : xs.reverse.find? (fun y => y.2 == i) with
    | some y => simp [hf]
    | none =>
      simp only [hf, Option.map_none', Option.none_or]
      rw [dictFind_dictInsert]
      by_cases hik : i = x.2
      · simp [List.find?_cons, hik]
      · simp [List.find?_cons, hik, Ne.symm hik]

theorem dict_letters_lookup_last (inp : Input) (i : Int) :
    dictFind (dict_letters inp) i
      = ((fixed_letters inp).filter (fun x => x.2 == i)).getLast?.map (·.1) := by
  unfold dict_letters
  rw [dictFind_foldl]
  have h0 : dictFind [] i = none := rfl
  rw [h0, Option.or_none, List.getLast?_eq_head?_reverse, ← List.filter_reverse,
    ← find?_eq_head?_filter]

theorem dictContains_iff (d : List (Int × Char)) (i : Int) :
    dictContains d i = true ↔ (dictFind d i).isSome = true := by
  unfold dictContains dictFind
  simp [List.any_eq_true]

/-! foldl/set lemmas for the pattern construction -/

theorem foldl_set_length (L : List (Nat × Char)) (base : List Char) :
    (L.foldl (fun acc y => acc.set y.1 y.2) base).length = base.length := by
  induction L generalizing base with
  | nil => rfl
  | cons z L ih => rw [List.foldl_cons, ih, List.length_set]

theorem foldl_set_getD_of_not_mem (L : List (Nat × Char)) (base : List Char) (j : Nat)
    (d : Char) (hj : ∀ y ∈ L, y.1 ≠ j) :
    (L.foldl (fun acc y => acc.set y.1 y.2) base).getD j d = base.getD j d := by
  induction L generalizing base with
  | nil => rfl
  | cons z L ih =>
    rw [List.foldl_cons, ih _ (fun y hy => hj y (List.mem_cons_of_mem z hy))]
    have hz : z.1 ≠ j := hj z (List.mem_cons_self z L)
    simp [List.getD_eq_getElem?_getD, List.getElem?_set_ne hz]

theorem foldl_set_getD_of_mem (L : List (Nat × Char)) (base : List Char) (y : Nat × Char)
    (d : Char) (hnd : (L.map (·.1)).Nodup) (hy : y ∈ L) (hlt : y.1 < base.length) :
    (L.foldl (fun acc v => acc.set v.1 v.2) base).getD y.1 d = y.2 := by
  induction L generalizing base with
  | nil => simp at hy
  | cons z L ih =>
    rw [List.foldl_cons]
    have hnd' : (z.1 :: L.map (·.1)).Nodup := by simpa using hnd
    rcases List.mem_cons.mp hy with rfl | hy'
    · have hnotin : ∀ v ∈ L, v.1 ≠ y.1 := by
        intro v hv he
        exact (List.nodup_cons.mp hnd').1 (he ▸ List.mem_map_of_mem (·.1) hv)
      rw [foldl_set_getD_of_not_mem L _ y.1 d hnotin]
      simp [List.getD_eq_getElem?_getD, List.getElem?_set_self hlt]
    · exact ih (base.set z.1 z.2) (List.nodup_cons.mp hnd').2 hy'
        (by rw [List.length_set]; exact hlt)

/-! Lexicographic row order and `np_unique` lemmas -/

theorem lexLe_total (a b : List Char) : lexLe a b = true ∨ lexLe b a = true := by
  induction a generalizing b with
  | nil => left; rfl
  | cons x xs ih =>
    cases b with
    | nil => right; rfl
    | cons y ys =>
      rcases lt_trichotomy x y with h | h | h
      · left
        simp [lexLe, h]
      · subst h
        rcases ih ys with h2 | h2
        · left
          simp [lexLe, h2]
        · right
          simp [lexLe, h2]
      · right
        simp [lexLe, h]

theorem lexLe_trans : ∀ a b c : List Char,
    lexLe a b = true → lexLe b c = true → lexLe a c = true := by
  intro a
  induction a with
  | nil => intro b c _ _; rfl
  | cons x xs ih =>
    intro b c hab hbc
    cases b with
    | nil => simp [lexLe] at hab
    | cons y ys =>
      cases c with
      | nil => simp [lexLe] at hbc
      | cons z zs =>
        by_cases h1 : x < y
        · by_cases h2 : y < z
          · simp [lexLe, lt_trans h1 h2]
          · by_cases h3 : y = z
            · subst h3
              simp [lexLe, h1]
            · simp [lexLe, h2, h3] at hbc
        · by_cases h4 : x = y
          · subst h4
            by_cases h2 : x < z
            · simp [lexLe, h2]
            · by_cases h3 : x = z
              · subst h3
                simp only [lexLe, if_neg (lt_irrefl x), if_pos rfl] at hab hbc ⊢
                exact ih ys zs hab hbc
              · simp [lexLe, h2, h3] at hbc
          · simp [lexLe, h1, h4] at hab

instance : IsTotal (List Char) LexLe :=
  ⟨lexLe_total⟩

instance : IsTrans (List Char) LexLe :=
  ⟨lexLe_trans⟩

theorem np_unique_nodup (ws : List (List Char)) : (np_unique ws).Nodup :=
  (List.perm_insertionSort LexLe ws.dedup).nodup_iff.mpr (List.nodup_dedup ws)

theorem mem_np_unique {ws : List (List Char)} {w : List Char} :
    w ∈ np_unique ws ↔ w ∈ ws := by
  unfold np_unique
  rw [List.mem_insertionSort, List.mem_dedup]

theorem sorted_np_unique (ws : List (List Char)) : List.Sorted LexLe (np_unique ws) :=
  List.sorted_insertionSort LexLe ws.dedup

theorem np_unique_eq_self {l : List (List Char)} (hs : List.Sorted LexLe l)
    (hn : l.Nodup) : np_unique l = l := by
  unfold np_unique
  rw [List.dedup_eq_self.mpr hn, hs.insertionSort_eq]

/-! The fixed-position filter loop as a single filter -/

theorem foldl_filter_eq_filter_all {α β : Type} (p : β → α → Bool) :
    ∀ (fl : List β) (l : List α),
      fl.foldl (fun acc f => acc.filter (p f)) l
        = l.filter (fun x => fl.all (fun f => p f x))
  | [], l => by simp
  | f :: fs, l => by
    rw [List.foldl_cons, foldl_filter_eq_filter_all p fs (l.filter (p f)),
      List.filter_filter]
    apply List.filter_congr
    intro x _
    rw [List.all_cons, Bool.and_comm]

/-! Parser facts used by the pattern-shape claim -/

theorem filter_eq_single_of_nodup_keys (l : List (Char × Int)) (x : Char × Int)
    (hnd : (l.map (·.2)).Nodup) (hx : x ∈ l) :
    l.filter (fun y => y.2 == x.2) = [x] := by
  induction l with
  | nil => simp at hx
  | cons z l ih =>
    have hnd' : (z.2 :: l.map (·.2)).Nodup := by simpa using hnd
    rcases List.mem_cons.mp hx with rfl | hx'
    · rw [List.filter_cons_of_pos (by simp)]
      have hrest : l.filter (fun y => y.2 == x.2) = [] := by
        rw [List.filter_eq_nil_iff]
        intro y hy hbeq
        have hyx : y.2 = x.2 := by simpa using hbeq
        exact (List.nodup_cons.mp hnd').1 (hyx ▸ List.mem_map_of_mem (·.2) hy)
      rw [hrest]
    · have hz : ¬(z.2 == x.2) = true := by
        intro hbeq
        have hzx : z.2 = x.2 := by simpa using hbeq
        exact (List.nodup_cons.mp hnd').1 (hzx ▸ List.mem_map_of_mem (·.2) hx')
      rw [List.filter_cons_of_neg (p := fun (y : Char × Int) => y.2 == x.2) hz]
      exact ih (List.nodup_cons.mp hnd').2 hx'

theorem dictFind_fixed (inp : Input) (x : Char × Int)
    (hnd : ((fixed_letters inp).map (·.2)).Nodup) (hx : x ∈ fixed_letters inp) :
    dictFind (dict_letters inp) x.2 = some x.1 := by
  rw [dict_letters_lookup_last, filter_eq_single_of_nodup_keys _ x hnd hx]
  rfl

theorem known_pattern_length (inp : Input) :
    (known_pattern inp).length = inp.word_length := by
  unfold known_pattern
  rw [List.length_map, List.length_range]

theorem known_pattern_getD (inp : Input) (j : Nat) (hj : j < inp.word_length) :
    (known_pattern inp).getD j '?'
      = match dictFind (dict_letters inp) (Int.ofNat j) with
        | some c => c
        | none => '?' := by
  unfold known_pattern
  rw [List.getD_eq_getElem?_getD, List.getElem?_map, List.getElem?_range hj]
  rfl

theorem mem_unknown_pos (inp : Input) (j : Nat) :
    j ∈ unknown_pos inp
      ↔ j < inp.word_length ∧ dictContains (dict_letters inp) (Int.ofNat j) = false := by
  unfold unknown_pos
  rw [List.mem_filter, List.mem_range, Bool.not_eq_true']

/-! Concrete runs used by the claims -/

/-- Scenario A of the notebook: fixed `e@1`, `d@4`, floating `i`, `t`. -/
def inpA : Input :=
  { word_length := 5
    known_letters_loc := [('e', 1), ('d', 4), ('i', -1), ('t', -1)]
    avail_letters := ['q', 'w', 'f', 'h', 'j', 'k', 'z', 'x', 'c', 'v', 'b'] }

/-- A lookup oracle answering every pattern with the single word `tqikd`, a
length-5 word inside the extended allowed set whose position 1 is not `e`. -/
def lkC1 : List Char → List (List Char) :=
  fun _ => [['t', 'q', 'i', 'k', 'd']]

/-- A lookup oracle answering every pattern with the single word `tqqkd`, a
length-5 word inside the extended allowed set whose position 1 is not `e`. -/
def lkC9 : List Char → List (List Char) :=
  fun _ => [['t', 'q', 'q', 'k', 'd']]

/-- Conflicting fixed constraints: `a` and `b` both at position 0. -/
def inpC2 : Input :=
  { word_length := 5
    known_letters_loc := [('a', 0), ('b', 0)]
    avail_letters := [] }

/-- Three fixed letters and four floating letters in a five-letter word: the
floating letters outnumber the two open positions. -/
def inpC6 : Input :=
  { word_length := 5
    known_letters_loc := [('a', 0), ('b', 1), ('c', 2), ('d', -1), ('e', -1), ('f', -1), ('g', -1)]
    avail_letters := ['q'] }

/-- Lookup oracle for the degenerate run (its answers are never used because
no pattern is generated). -/
def lkC6 : List Char → List (List Char) :=
  fun _ => [['q', 'q', 'q', 'q', 'q']]

/-! Claim theorems -/

/-- Claim C1 (code_bug evaluation): the notebook prints `list_candidate_words`,
which is computed before the fixed-position filter loop runs, so the printed
output can contain a word violating a fixed constraint.  With fixed
constraints `e@1`, `d@4` and a lookup returning `tqikd` (length 5, all letters
allowed), the program prints `tqikd` even though its character at position 1
is `q`, not `e`, and even though the (discarded) fixed-position filter result
is empty. -/
theorem c1_printed_output_violates_fixed :
    report inpA lkC1 = Report.words [String.mk ['t', 'q', 'i', 'k', 'd']]
    ∧ fixed_filtered inpA lkC1 = []
    ∧ ['t', 'q', 'i', 'k', 'd'].getD 1 '?' ≠ 'e'
    ∧ ('e', (1 : Int)) ∈ fixed_letters inpA := by
  refine ⟨by decide, by decide, by decide, by decide⟩

/-- Claim C2 (counterexample): on the conflicting input `[('a',0), ('b',0)]`
(two fixed constraints at position 0 with different letters) the parser does
not fail at all: `fixed_letters` and `dict_letters` are computed normally, the
dict silently keeping only the letter of the later constraint.  No
`ConstraintError` (or any other failure) exists anywhere in the code. -/
theorem c2_conflict_parses_normally :
    fixed_letters inpC2 = [('a', 0), ('b', 0)]
    ∧ dict_letters inpC2 = [(0, 'b')] := by
  refine ⟨by decide, by decide⟩

/-- Claim C2 (amended): the constraint parser performs no validation and never
fails.  For every input and every position `i`, the parsed position map
resolves `i` to the letter of the LAST fixed constraint with position `i` (in
the stable position-sorted order of `fixed_letters`), conflicting constraints
being silently overwritten; out-of-range positions are accepted into the map
in exactly the same way rather than being rejected. -/
theorem c2_parser_last_wins (inp : Input) (i : Int) :
    dictFind (dict_letters inp) i
      = ((fixed_letters inp).filter (fun x => x.2 == i)).getLast?.map (·.1) :=
  dict_letters_lookup_last inp i

/-- Claim C3: for valid inputs (every fixed position inside
`[0, word_length)`, no duplicated fixed position), every generated pattern
has length exactly `word_length`, carries every fixed constraint's letter at
its required position, and there is a duplicate-free list `ps` of open
positions — one per floating letter — such that the i-th floating letter sits
at position `ps i`, while every remaining open position holds the
single-character wildcard `?`. -/
theorem c3_pattern_shape (inp : Input)
    (hrange : ∀ x ∈ inp.known_letters_loc, 0 ≤ x.2 → x.2.toNat < inp.word_length)
    (hnodup : ((inp.known_letters_loc.filter (fun l => 0 ≤ l.2)).map (·.2)).Nodup) :
    ∀ pat ∈ known_patterns inp,
      pat.length = inp.word_length
      ∧ (∀ x ∈ fixed_letters inp, pat.getD x.2.toNat '?' = x.1)
      ∧ ∃ ps : List Nat,
          ps.Nodup
          ∧ ps.length = (unknown_letters inp).length
          ∧ (∀ q ∈ ps, q ∈ unknown_pos inp)
          ∧ (∀ y ∈ ps.zip (unknown_letters inp), pat.getD y.1 '?' = y.2)
          ∧ (∀ j : Nat, j < inp.word_length → j ∉ ps
              → dictContains (dict_letters inp) (Int.ofNat j) = false
              → pat.getD j '?' = '?') := by
  intro pat hpat
  unfold known_patterns perms_unknown_combos at hpat
  rw [List.mem_flatMap] at hpat
  obtain ⟨perms, hperms, hpat⟩ := hpat
  rw [List.mem_map] at hperms
  obtain ⟨c, hc, rfl⟩ := hperms
  rw [List.mem_map] at hpat
  obtain ⟨ps, hps, rfl⟩ := hpat
  have hsub : c.Sublist (unknown_pos inp) := sublist_of_mem_combinations _ _ c hc
  have hclen : c.length = (unknown_letters inp).length :=
    length_of_mem_combinations _ _ c hc
  have hperm : ps.Perm c := perm_of_mem_permutations hps
  have hposnodup : (unknown_pos inp).Nodup := by
    unfold unknown_pos
    exact (List.nodup_range _).filter _
  have hcnodup : c.Nodup := hposnodup.sublist hsub
  have hpsnodup : ps.Nodup := hperm.nodup_iff.mpr hcnodup
  have hpslen : ps.length = (unknown_letters inp).length := hperm.length_eq.trans hclen
  have hpsmem : ∀ q ∈ ps, q ∈ unknown_pos inp :=
    fun q hq => hsub.subset (hperm.subset hq)
  have hndfix : ((fixed_letters inp).map (·.2)).Nodup :=
    (List.Perm.map (fun x : Char × Int => x.2) (List.perm_insertionSort _ _)).nodup_iff.mpr hnodup
  have hps_lt : ∀ q ∈ ps, q < inp.word_length :=
    fun q hq => ((mem_unknown_pos inp q).mp (hpsmem q hq)).1
  have hps_notfix : ∀ q ∈ ps, dictContains (dict_letters inp) (Int.ofNat q) = false :=
    fun q hq => ((mem_unknown_pos inp q).mp (hpsmem q hq)).2
  refine ⟨?_, ?_, ps, hpsnodup, hpslen, hpsmem, ?_, ?_⟩
  · unfold apply_assignment
    rw [foldl_set_length, known_pattern_length]
  · intro x hx
    have hxf : x ∈ inp.known_letters_loc.filter (fun l => 0 ≤ l.2) :=
      (List.perm_insertionSort _ _).mem_iff.mp hx
    have hx0 : 0 ≤ x.2 := of_decide_eq_true (List.mem_filter.mp hxf).2
    have hxkll : x ∈ inp.known_letters_loc := (List.mem_filter.mp hxf).1
    have hxlt : x.2.toNat < inp.word_length := hrange x hxkll hx0
    have hfind : dictFind (dict_letters inp) x.2 = some x.1 := dictFind_fixed inp x hndfix hx
    have hcast : Int.ofNat x.2.toNat = x.2 := Int.toNat_of_nonneg hx0
    have hnot : ∀ y ∈ ps.zip (unknown_letters inp), y.1 ≠ x.2.toNat := by
      intro y hy he
      have hy1 : y.1 ∈ ps := (List.of_mem_zip hy).1
      have hfalse := hps_notfix y.1 hy1
      rw [he, hcast] at hfalse
      have htrue : dictContains (dict_letters inp) x.2 = true :=
        (dictContains_iff _ _).mpr (by rw [hfind]; rfl)
      rw [htrue] at hfalse
      exact Bool.true_eq_false.mp hfalse
    unfold apply_assignment
    rw [foldl_set_getD_of_not_mem _ _ _ _ hnot, known_pattern_getD inp _ hxlt, hcast, hfind]
  · intro y hy
    unfold apply_assignment
    apply foldl_set_getD_of_mem
    · rw [List.map_fst_zip _ _ (le_of_eq hpslen)]
      exact hpsnodup
    · exact hy
    · rw [known_pattern_length]
      exact hps_lt y.1 (List.of_mem_zip hy).1
  · intro j hj hjps hjcont
    have hnot : ∀ y ∈ ps.zip (unknown_letters inp), y.1 ≠ j := by
      intro y hy he
      exact hjps (he ▸ (List.of_mem_zip hy).1)
    unfold apply_assignment
    rw [foldl_set_getD_of_not_mem _ _ _ _ hnot, known_pattern_getD inp j hj]
    have hnone : dictFind (dict_letters inp) (Int.ofNat j) = none := by
      cases hd : dictFind (dict_letters inp) (Int.ofNat j) with
      | none => rfl
      | some cc =>
        have : dictContains (dict_letters inp) (Int.ofNat j) = true :=
          (dictContains_iff _ _).mpr (by rw [hd]; rfl)
        rw [hjcont] at this
        exact absurd this (by simp)
    rw [hnone]

/-- Witness for C3 at Scenario A and its first generated pattern `iet?d`. -/
theorem c3_pattern_shape_witness :
    (∀ x ∈ inpA.known_letters_loc, 0 ≤ x.2 → x.2.toNat < inpA.word_length)
    ∧ ((inpA.known_letters_loc.filter (fun l => 0 ≤ l.2)).map (·.2)).Nodup
    ∧ ['i', 'e', 't', '?', 'd'] ∈ known_patterns inpA
    ∧ (['i', 'e', 't', '?', 'd'].length = inpA.word_length
      ∧ (∀ x ∈ fixed_letters inpA, ['i', 'e', 't', '?', 'd'].getD x.2.toNat '?' = x.1)
      ∧ ∃ ps : List Nat,
          ps.Nodup
          ∧ ps.length = (unknown_letters inpA).length
          ∧ (∀ q ∈ ps, q ∈ unknown_pos inpA)
          ∧ (∀ y ∈ ps.zip (unknown_letters inpA),
              ['i', 'e', 't', '?', 'd'].getD y.1 '?' = y.2)
          ∧ (∀ j : Nat, j < inpA.word_length → j ∉ ps
              → dictContains (dict_letters inpA) (Int.ofNat j) = false
              → ['i', 'e', 't', '?', 'd'].getD j '?' = '?')) :=
  ⟨by decide, by decide, by decide,
    c3_pattern_shape inpA (by decide) (by decide) ['i', 'e', 't', '?', 'd'] (by decide)⟩

/-- Claim C4: the number of generated patterns is `C(n, k) * k!` where `n` is
the number of open positions and `k` the number of floating letters; in
particular it is zero when `k > n` (since `C(n, k) = 0`) and one when
`k = 0`. -/
theorem c4_pattern_count (inp : Input) :
    (known_patterns inp).length
        = (unknown_pos inp).length.choose (unknown_letters inp).length
          * (unknown_letters inp).length.factorial
    ∧ ((unknown_pos inp).length < (unknown_letters inp).length →
        (known_patterns inp).length = 0)
    ∧ ((unknown_letters inp).length = 0 → (known_patterns inp).length = 1) := by
  have hmain : (known_patterns inp).length
      = (unknown_pos inp).length.choose (unknown_letters inp).length
        * (unknown_letters inp).length.factorial := by
    unfold known_patterns perms_unknown_combos
    rw [length_flatMap_sum, List.map_map,
      sum_map_const_of_mem _ _ ((unknown_letters inp).length.factorial) ?const]
    · unfold unknown_combos
      rw [length_combinations]
    · intro c hc
      simp only [Function.comp_apply, List.length_map]
      rw [length_permutations, length_of_mem_combinations _ _ c hc]
  refine ⟨hmain, fun h => ?_, fun h => ?_⟩
  · rw [hmain, Nat.choose_eq_zero_of_lt h, Nat.zero_mul]
  · rw [hmain, h, Nat.choose_zero_right, Nat.factorial_zero, Nat.mul_one]

/-- Witness for C4: on Scenario A the count is `C(3,2)*2! = 6`; on the
degenerate input the hypothesis `n < k` holds and the count is zero; on the
conflict input there are no floating letters and the count is one. -/
theorem c4_pattern_count_witness :
    (known_patterns inpA).length
        = (unknown_pos inpA).length.choose (unknown_letters inpA).length
          * (unknown_letters inpA).length.factorial
    ∧ (unknown_pos inpC6).length < (unknown_letters inpC6).length
    ∧ (known_patterns inpC6).length = 0
    ∧ (unknown_letters inpC2).length = 0
    ∧ (known_patterns inpC2).length = 1 :=
  ⟨(c4_pattern_count inpA).1, by decide, (c4_pattern_count inpC6).2.1 (by decide),
    by decide, (c4_pattern_count inpC2).2.2 (by decide)⟩

/-- Claim C5: on Scenario A (word length 5, fixed `e@1`, `d@4`, floating
`['i','t']`) the generator produces exactly the six patterns
`iet?d, tei?d, ie?td, te?id, ?eitd, ?etid` in this order.  `known_patterns`
is a pure function of the input, so every run with these inputs produces this
same ordered list. -/
theorem c5_scenarioA_patterns :
    known_patterns inpA
      = [['i', 'e', 't', '?', 'd'], ['t', 'e', 'i', '?', 'd'],
         ['i', 'e', '?', 't', 'd'], ['t', 'e', '?', 'i', 'd'],
         ['?', 'e', 'i', 't', 'd'], ['?', 'e', 't', 'i', 'd']] := by
  decide

/-- Claim C6: when the floating letters outnumber the open positions, no
pattern is generated (the combination list is empty), the final candidate
list is empty, and the run terminates normally with the no-candidates
outcome (every stage is a total function on the empty list). -/
theorem c6_impossible (inp : Input)
    (h : (unknown_pos inp).length < (unknown_letters inp).length) :
    known_patterns inp = []
    ∧ (∀ lookup, filtered_candidate_arr inp lookup = [])
    ∧ (∀ lookup, report inp lookup = Report.noMatch (avail_letters_ext inp)) := by
  have hc : unknown_combos inp = [] := by
    have hl := length_combinations (unknown_letters inp).length (unknown_pos inp)
    rw [Nat.choose_eq_zero_of_lt h] at hl
    unfold unknown_combos
    exact List.length_eq_zero.mp hl
  have hkp : known_patterns inp = [] := by
    unfold known_patterns perms_unknown_combos
    rw [hc]
    rfl
  have hcw : ∀ lookup, candidate_words inp lookup = [] := fun lookup => by
    unfold candidate_words
    rw [hkp]
    rfl
  have hfa : ∀ lookup, filtered_candidate_arr inp lookup = [] := fun lookup => by
    unfold filtered_candidate_arr candidate_arr np_unique
    rw [hcw]
    rfl
  refine ⟨hkp, hfa, fun lookup => ?_⟩
  unfold report
  rw [hfa]
  rfl

/-- Witness for C6 at the spec's boundary example: 4 floating letters and only
2 open positions. -/
theorem c6_impossible_witness :
    (unknown_pos inpC6).length < (unknown_letters inpC6).length
    ∧ known_patterns inpC6 = []
    ∧ filtered_candidate_arr inpC6 lkC6 = []
    ∧ report inpC6 lkC6 = Report.noMatch (avail_letters_ext inpC6) := by
  have h := c6_impossible inpC6 (by decide)
  exact ⟨by decide, h.1, h.2.1 lkC6, h.2.2 lkC6⟩

/-- Claim C7: the allowed-letter set used for filtering is the base set plus
the letter of every constraint (fixed and floating), and a word survives the
allowed-letter filter exactly when it came from the deduplicated candidate
array and all its characters lie in this extended set — so every surviving
word's character set is a subset of it and any word with an outside character
is discarded. -/
theorem c7_allowed_letter_filter (inp : Input) (lookup : List Char → List (List Char)) :
    (∀ c : Char, c ∈ avail_letters_ext inp
        ↔ c ∈ inp.avail_letters ∨ ∃ p : Int, (c, p) ∈ inp.known_letters_loc)
    ∧ (∀ w : List Char, w ∈ filtered_candidate_arr inp lookup
        ↔ w ∈ candidate_arr (candidate_words inp lookup)
          ∧ ∀ c ∈ w, c ∈ avail_letters_ext inp) := by
  constructor
  · intro c
    unfold avail_letters_ext known_letters
    rw [List.mem_append, List.mem_map]
    constructor
    · rintro (h | ⟨x, hx, rfl⟩)
      · exact Or.inl h
      · exact Or.inr ⟨x.2, hx⟩
    · rintro (h | ⟨p, hp⟩)
      · exact Or.inl h
      · exact Or.inr ⟨(c, p), hp, rfl⟩
  · intro w
    unfold filtered_candidate_arr
    rw [List.mem_filter, List.all_eq_true]
    constructor
    · rintro ⟨hmem, hall⟩
      refine ⟨hmem, fun c hc => ?_⟩
      have := hall c hc
      simpa [List.contains, List.elem_iff] using this
    · rintro ⟨hmem, hall⟩
      refine ⟨hmem, fun c hc => ?_⟩
      simpa [List.contains, List.elem_iff] using hall c hc

/-- Witness for C7 at Scenario A with the `tqikd` oracle: the letter `e` is in
the extended allowed set because of its constraint, and the surviving word
`tqikd` is characterized by membership in the candidate array plus the
allowed-letter condition. -/
theorem c7_allowed_letter_filter_witness :
    ('e' ∈ avail_letters_ext inpA
        ↔ 'e' ∈ inpA.avail_letters ∨ ∃ p : Int, ('e', p) ∈ inpA.known_letters_loc)
    ∧ (['t', 'q', 'i', 'k', 'd'] ∈ filtered_candidate_arr inpA lkC1
        ↔ ['t', 'q', 'i', 'k', 'd'] ∈ candidate_arr (candidate_words inpA lkC1)
          ∧ ∀ c ∈ ['t', 'q', 'i', 'k', 'd'], c ∈ avail_letters_ext inpA) :=
  ⟨(c7_allowed_letter_filter inpA lkC1).1 'e',
    (c7_allowed_letter_filter inpA lkC1).2 ['t', 'q', 'i', 'k', 'd']⟩

/-- Claim C8 (counterexample): the deduplication step performs no case
normalization.  On the aggregated list `["Ab", "ab"]` (identical up to case)
`candidate_arr` keeps both entries instead of collapsing them to one. -/
theorem c8_no_case_normalization :
    candidate_arr [['A', 'b'], ['a', 'b']] = [['A', 'b'], ['a', 'b']]
    ∧ (candidate_arr [['A', 'b'], ['a', 'b']]).length = 2 := by
  refine ⟨by decide, by decide⟩

/-- Claim C8 (amended): the deduplication step reduces the aggregated word
list to unique exact (case-sensitive) character sequences: the result has no
duplicates and contains exactly the words of the input, so words with
identical ordered letter sequences arising from multiple patterns collapse to
one entry, while words differing in case remain distinct. -/
theorem c8_dedup_exact_sequences (cw : List (List Char)) :
    (candidate_arr cw).Nodup ∧ ∀ w : List Char, w ∈ candidate_arr cw ↔ w ∈ cw := by
  exact ⟨np_unique_nodup cw, fun w => mem_np_unique⟩

/-- Claim C9 (code_bug evaluation): the reporting branch tests (and prints)
the list computed before the fixed-position filter.  With fixed constraints
`e@1`, `d@4` and a lookup returning only `tqqkd`, the set of candidates
surviving all filters is empty, yet the program prints the word list
`[tqqkd]` instead of the explanatory no-match message. -/
theorem c9_empty_candidates_still_prints_words :
    fixed_filtered inpA lkC9 = []
    ∧ report inpA lkC9 = Report.words [String.mk ['t', 'q', 'q', 'k', 'd']] := by
  refine ⟨by decide, by decide⟩

/-- Claim C10: the candidate-filter stage (dedup-and-sort, allowed-letter
filter, fixed-position filter) is idempotent: applying it to its own output
returns that output unchanged. -/
theorem c10_candidate_filter_idempotent (inp : Input) (ws : List (List Char)) :
    candidate_filter inp (candidate_filter inp ws) = candidate_filter inp ws := by
  have hform : ∀ vs : List (List Char), candidate_filter inp vs
      = ((np_unique vs).filter (fun x => x.all (fun c => (avail_letters_ext inp).contains c))).filter
          (fun w => (fixed_letters inp).all (fun f => w.getD f.2.toNat '?' == f.1)) := by
    intro vs
    unfold candidate_filter
    exact foldl_filter_eq_filter_all
      (fun (f : Char × Int) (w : List Char) => w.getD f.2.toNat '?' == f.1)
      (fixed_letters inp) _
  have hsorted : List.Sorted LexLe (candidate_filter inp ws) := by
    rw [hform]
    exact ((sorted_np_unique ws).filter _).filter _
  have hnodup : (candidate_filter inp ws).Nodup := by
    rw [hform]
    exact ((np_unique_nodup ws).filter _).filter _
  rw [hform (candidate_filter inp ws), np_unique_eq_self hsorted hnodup]
  have hmemA : ∀ w ∈ candidate_filter inp ws,
      w.all (fun c => (avail_letters_ext inp).contains c) = true := by
    intro w hw
    rw [hform] at hw
    exact (List.mem_filter.mp (List.mem_filter.mp hw).1).2
  have hmemF : ∀ w ∈ candidate_filter inp ws,
      (fixed_letters inp).all (fun f => w.getD f.2.toNat '?' == f.1) = true := by
    intro w hw
    rw [hform] at hw
    exact (List.mem_filter.mp hw).2
  rw [List.filter_eq_self.mpr hmemA, List.filter_eq_self.mpr hmemF]

end FindCandidateWords
